import Mathlib

/-!
Verification of the annotation core of `app/labeling.py` (VideoMarkUp).

The file shallowly embeds the logic of the labeling tool: the sequence store
(a Python dict from integer track id to a list of 4-element record lists),
its add / list-recent / remove operations, its JSON persistence, the frame
grid addressing, the per-frame enhancement pipeline, and the mosaic canvas
composition.  Records are JSON arrays of Python ints, so a record is
modelled as `List Int`; the store is an insertion-ordered association list.
External library routines (image resize, CLAHE, text stamping) are taken as
explicit function parameters; the brightness/contrast adjustment, whose
library source is not part of the repository, is modelled from the spec.
-/

namespace VideoMarkUp

/-- Python comparison `a <= b` on lists of ints: lexicographic, the first
differing element decides, a strict prefix is smaller. -/
def listLe : List Int → List Int → Bool
  | [], _ => true
  | _ :: _, [] => false
  | a :: as, b :: bs => if a < b then true else if b < a then false else listLe as bs

/-- The sequence store: a Python dict from track id to the list of sequence
records, keys kept in insertion order. -/
abbrev Store := List (Int × List (List Int))

/-- Dict lookup `sequences[track_id]` (also `track_id in sequences`). -/
def lookupStore (s : Store) (tid : Int) : Option (List (List Int)) :=
  (s.find? fun e => e.1 == tid).map (·.2)

/-- Dict assignment `sequences[track_id] = v` for a key that is present:
the entry's value is replaced in place, key order unchanged. -/
def updateStore (s : Store) (tid : Int) (v : List (List Int)) : Store :=
  s.map fun e => if e.1 == tid then (e.1, v) else e

/-- Model of `adding_sequences` (labeling.py:100-115), the branch where the
Add button is pressed: append `[first_frame, last_frame, track_id,
visible_number]` to the track's list, creating the list when the key is
absent (a fresh dict key goes to the end). -/
def adding_sequences (s : Store) (tid first_frame last_frame visible_number : Int) : Store :=
  match lookupStore s tid with
  | some l => updateStore s tid (l ++ [[first_frame, last_frame, tid, visible_number]])
  | none => s ++ [(tid, [[first_frame, last_frame, tid, visible_number]])]

/-- The comparison used by `show_sequences` (labeling.py:224):
`sorted(enumerate(sequences[track_id]), key=lambda x: x[1])` orders the
enumerated pairs by their record component, compared as Python lists. -/
def recLe (p q : Nat × List Int) : Prop := listLe p.2 q.2 = true

instance : DecidableRel recLe := fun p q =>
  inferInstanceAs (Decidable (listLe p.2 q.2 = true))

instance : IsTotal (Nat × List Int) recLe := by
  constructor
  have h : ∀ a b : List Int, listLe a b = true ∨ listLe b a = true := by
    intro a
    induction a with
    | nil => intro b; left; rfl
    | cons x xs ih =>
      intro b
      cases b with
      | nil => right; rfl
      | cons y ys =>
        simp only [listLe]
        rcases ih ys with h | h <;> split_ifs <;> simp_all <;> omega
  intro p q
  exact h p.2 q.2

instance : IsTrans (Nat × List Int) recLe := by
  constructor
  have h : ∀ a b c : List Int,
      listLe a b = true → listLe b c = true → listLe a c = true := by
    intro a
    induction a with
    | nil => intro b c _ _; cases c <;> rfl
    | cons x xs ih =>
      intro b c h1 h2
      cases b with
      | nil => simp [listLe] at h1
      | cons y ys =>
        cases c with
        | nil => simp [listLe] at h2
        | cons z zs =>
          simp only [listLe] at h1 h2 ⊢
          split_ifs at h1 h2 ⊢ <;>
            first
              | rfl
              | omega
              | exact ih ys zs h1 h2
              | simp_all
              | (exfalso; omega)
  intro p q r
  exact h p.2 q.2 r.2

/-- The track listing of `show_sequences` (labeling.py:208-236): the rows
shown (and offered for removal) are
`sorted(enumerate(sequences[track_id]), key=lambda x: x[1])[-lastk:]` — the
enumerated records, stably sorted by record, truncated to the last `k`;
an absent track id yields no rows. -/
def recent (s : Store) (tid : Int) (k : Nat) : List (Nat × List Int) :=
  match lookupStore s tid with
  | none => []
  | some l =>
    let srtd := List.insertionSort recLe l.enum
    srtd.drop (srtd.length - k)

/-- Model of the removal step (labeling.py:46-47): when the returned index
list is non-empty and the track id is a key, rebuild the track's list from
the entries whose enumeration index is not in the set of returned indices. -/
def remove_step (s : Store) (tid : Int) (ris : List Nat) : Store :=
  match lookupStore s tid with
  | some l =>
    if 0 < ris.length then
      updateStore s tid ((l.enum.filter fun p => !(ris.contains p.1)).map (·.2))
    else s
  | none => s

/-- Little-endian decimal digits of a natural number (empty for zero). -/
def natDigits : Nat → List Nat
  | 0 => []
  | n + 1 => (n + 1) % 10 :: natDigits ((n + 1) / 10)
decreasing_by exact Nat.div_lt_self (Nat.succ_pos n) (by omega)

/-- Value of a little-endian decimal digit list. -/
def ofDigits10 : List Nat → Nat
  | [] => 0
  | d :: ds => d + 10 * ofDigits10 ds

/-- Character of a decimal digit, as Python prints it. -/
def digitChar (d : Nat) : Char := Char.ofNat (48 + d)

/-- Numeric value of a decimal digit character. -/
def digitVal (c : Char) : Nat := c.toNat - 48

/-- Python `str(n)` for a natural number: most-significant digit first,
`"0"` for zero. -/
def natKey (n : Nat) : List Char :=
  if n = 0 then ['0'] else ((natDigits n).map digitChar).reverse

/-- Python `str(i)` for an int, as `json.dump` renders a dict key: an
optional minus sign followed by decimal digits. -/
def intKey (i : Int) : List Char :=
  if i < 0 then '-' :: natKey i.natAbs else natKey i.toNat

/-- Python `int(s)` on the strings `str` produces: parse an optional
leading minus sign, then decimal digits. -/
def keyToInt (cs : List Char) : Int :=
  if cs.head? = some '-' then
    -(ofDigits10 ((cs.tail.map digitVal).reverse) : Int)
  else
    (ofDigits10 ((cs.map digitVal).reverse) : Int)

/-- Model of `save_sequences` (labeling.py:128-130) at the document level:
`json.dump` renders each integer key as its decimal string and each track's
record lists as JSON arrays, in store order. -/
def save_sequences (s : Store) : List (List Char × List (List Int)) :=
  s.map fun e => (intKey e.1, e.2)

/-- Model of `load_sequences` (labeling.py:118-125).  The argument models
the state of the file: `none` when `os.path.exists` is false (an empty
store results), `some (.error e)` when `json.load` fails (the error is
fatal and surfaces to the caller), `some (.ok doc)` when a JSON object was
parsed (each top-level key is converted with `int(...)`, the values are
kept as parsed). -/
def load_sequences (file : Option (Except String (List (List Char × List (List Int))))) :
    Except String Store :=
  match file with
  | none => .ok []
  | some (.error e) => .error e
  | some (.ok doc) => .ok (doc.map fun e => (keyToInt e.1, e.2))

/-- The relative frame offset of grid column `i` in `show_images`
(labeling.py:203): `rel_no = (i - (N - 1) // 2) * stride`. -/
def show_images_rel_no (i N stride : Nat) : Int :=
  ((i : Int) - ((N - 1) / 2 : Nat)) * (stride : Int)

/-- The absolute frame indices of one `show_images` row (labeling.py:174-175
and 200-204): column `i` of `N` shows frame `rel_no + frame_no`. -/
def show_images_abs_nos (frame_no : Int) (N stride : Nat) : List Int :=
  (List.range N).map fun i => show_images_rel_no i N stride + frame_no

/-- The full image grid of `labeling` (labeling.py:29-32): row `row` is a
`show_images` call centered at `frame_no + row * images_per_row * stride`. -/
def labeling_grid (frame_no : Int) (n_rows images_per_row stride : Nat) : List (List Int) :=
  (List.range n_rows).map fun (row : Nat) =>
    show_images_abs_nos (frame_no + (row : Int) * images_per_row * stride) images_per_row stride

/-- A raster image: height, width, channel count and the pixel intensities
(rational, standing for the numeric dtype of the arrays). -/
@[ext]
structure Image where
  height : Nat
  width : Nat
  channels : Nat
  pixel : Nat → Nat → Nat → ℚ

/-- `np.zeros((h, w, c))`: the zero-filled image. -/
def zeros (h w c : Nat) : Image :=
  { height := h, width := w, channels := c, pixel := fun _ _ _ => 0 }

/-- The largest pixel intensity occurring in the image (0 for an empty
image). -/
def maxIntensity (img : Image) : ℚ :=
  (((List.range img.height).flatMap fun i =>
      (List.range img.width).flatMap fun j =>
        (List.range img.channels).map fun c => img.pixel i j c).foldr max 0)

/-- Modelled from the spec: `brightness_contrast_adjust(frame, alpha, beta,
beta_by_max=True)` of the albumentations library, whose source is not part
of this repository — per §4.2 it scales each intensity by `alpha` and
shifts it by `beta` interpreted as a fraction of the image's own maximum
intensity. -/
def brightness_contrast_adjust (img : Image) (alpha beta : ℚ) : Image :=
  { img with pixel := fun i j c => alpha * img.pixel i j c + beta * maxIntensity img }

/-- CLAHE configuration (labeling.py:80-86). -/
structure ClaheConfig where
  clip_limit : ℚ
  tile_grid_size : Nat × Nat

/-- The image-transform configuration built by `choose_image_transforms`
(labeling.py:72-90). -/
structure ImageTransforms where
  brightness : ℚ
  contrast : ℚ
  clahe : Option ClaheConfig

/-- The channel-order flip `frame[:, :, ::-1]` (labeling.py:191). -/
def flipChannels (img : Image) : Image :=
  { img with pixel := fun i j c => img.pixel i j (img.channels - 1 - c) }

/-- Model of `show_images.get_frame` (labeling.py:174-191).  `resizeFn`
stands for the external `cv2.resize` and `claheFn` for the external
`clahe` routine; both are parameters, as the spec keeps them out of
scope.  A requested index outside `[0, len(frames))` yields the blank
zero frame of the cell size; otherwise the frame is resized, then (when a
transform configuration is given) brightness/contrast-adjusted with
`alpha = 1 + brightness`, `beta = contrast`, then CLAHE-equalized when a
CLAHE configuration is present, and finally channel-flipped. -/
def get_frame (resizeFn : Image → Nat → Nat → Image) (claheFn : ClaheConfig → Image → Image)
    (frame_no : Int) (frames : List Image) (N : Nat)
    (image_transforms : Option ImageTransforms) (relNo : Int) : Image :=
  let hsize := 800 / N
  let wsize := 800 / N
  let absNo := relNo + frame_no
  if absNo < 0 ∨ (frames.length : Int) ≤ absNo then zeros hsize wsize 3
  else
    let frame := frames.getD absNo.toNat (zeros 0 0 0)
    let frame := resizeFn frame hsize wsize
    let frame :=
      match image_transforms with
      | none => frame
      | some t =>
        let f := brightness_contrast_adjust frame (1 + t.brightness) t.contrast
        match t.clahe with
        | none => f
        | some cc => claheFn cc f
    flipChannels frame

/-- Apply the optional CLAHE stage (labeling.py:188-189): the external
routine runs only when a CLAHE configuration is present. -/
def applyOptClahe (claheFn : ClaheConfig → Image → Image) (cfg : Option ClaheConfig)
    (img : Image) : Image :=
  match cfg with
  | none => img
  | some cc => claheFn cc img

/-- The slice assignment
`image[i*size:(i+1)*size, j*size:(j+1)*size] = img` (labeling.py:245):
pixels inside tile `(i, j)` come from `img`, shifted; all others keep the
base image's value. -/
def placeTile (base tile : Image) (i j size : Nat) : Image :=
  { base with
    pixel := fun y x c =>
      if i * size ≤ y ∧ y < (i + 1) * size ∧ j * size ≤ x ∧ x < (j + 1) * size then
        tile.pixel (y - i * size) (x - j * size) c
      else base.pixel y x c }

/-- The row-major tile index of the tile containing pixel `(y, x)` on an
`n × n` grid of `size × size` tiles. -/
def tileIndex (n size y x : Nat) : Nat := (y / size) * n + x / size

/-- The loop body of `canvas` (labeling.py:241-247): place frame `idx` —
a copy with its index stamped on by the external `vt.write_text`, modelled
by `writeTextFn` — at tile `(idx // n, idx % n)`, and break right after
placing frame `n^2 - 1`. -/
def canvasLoop (writeTextFn : Nat → Image → Image) (n size : Nat) :
    List Image → Nat → Image → Image
  | [], _, image => image
  | bbox :: rest, idx, image =>
    let img := writeTextFn idx bbox
    let image := placeTile image img (idx / n) (idx % n) size
    if idx = n ^ 2 - 1 then image else canvasLoop writeTextFn n size rest (idx + 1) image

/-- Model of `canvas` (labeling.py:239-248): tile the frames row-major onto
a zero-initialized `(size*n, size*n, 3)` canvas. -/
def canvas (writeTextFn : Nat → Image → Image) (frames : List Image) (n size : Nat) : Image :=
  canvasLoop writeTextFn n size frames 0 (zeros (size * n) (size * n) 3)

/-- The loop body of `canvas` again, but at the level of a heap of pixel
buffers, to make Python's reference semantics visible: the frames are
references into `heap`; `img = bbox.copy()` allocates a fresh buffer at
the end of the heap, `vt.write_text(img, str(idx))` mutates that fresh
buffer in place, and the placement reads it.  Returns the final heap
together with the canvas. -/
def heapCanvasLoop (writeTextFn : Nat → Image → Image) (n size : Nat) :
    List Nat → Nat → List Image → Image → List Image × Image
  | [], _, heap, image => (heap, image)
  | bid :: rest, idx, heap, image =>
    let freshId := heap.length
    let heap := heap ++ [heap.getD bid (zeros 0 0 0)]
    let heap := heap.set freshId (writeTextFn idx (heap.getD freshId (zeros 0 0 0)))
    let img := heap.getD freshId (zeros 0 0 0)
    let image := placeTile image img (idx / n) (idx % n) size
    if idx = n ^ 2 - 1 then (heap, image)
    else heapCanvasLoop writeTextFn n size rest (idx + 1) heap image

/-- Model of `canvas` over a heap of pixel buffers: `frameIds` are the
references making up the `frames` argument. -/
def heapCanvas (writeTextFn : Nat → Image → Image) (frameIds : List Nat) (n size : Nat)
    (heap : List Image) : List Image × Image :=
  heapCanvasLoop writeTextFn n size frameIds 0 heap (zeros (size * n) (size * n) 3)

/-- Claim C8: loading from a missing file yields the empty store, not an
error; loading a parsed JSON object converts every top-level key with
`int(...)` and keeps the per-track record lists as parsed; a JSON parse
failure is fatal and surfaces to the caller unchanged. -/
theorem C8_load_missing_empty :
    load_sequences none = .ok [] ∧
    (∀ e, load_sequences (some (.error e)) = .error e) ∧
    (∀ doc, load_sequences (some (.ok doc)) = .ok (doc.map fun e => (keyToInt e.1, e.2))) :=
  ⟨rfl, fun _ => rfl, fun _ => rfl⟩

/-- Claim C5: a requested absolute frame index outside `[0, frame_count)`
never fails — it resolves to the zero-filled blank frame of the configured
cell size (`800 // N` square, 3 channels), with no transform applied. -/
theorem C5_out_of_range_blank (resizeFn : Image → Nat → Nat → Image)
    (claheFn : ClaheConfig → Image → Image) (frame_no : Int) (frames : List Image)
    (N : Nat) (tr : Option ImageTransforms) (relNo : Int)
    (h : relNo + frame_no < 0 ∨ (frames.length : Int) ≤ relNo + frame_no) :
    get_frame resizeFn claheFn frame_no frames N tr relNo = zeros (800 / N) (800 / N) 3 := by
  simp only [get_frame]
  rw [if_pos h]

theorem C5_witness :
    (((5 : Int) + 0 < 0) ∨ ((List.length ([] : List Image) : Int) ≤ 5 + 0)) ∧
    get_frame (fun f _ _ => f) (fun _ f => f) 0 [] 19 none 5 = zeros (800 / 19) (800 / 19) 3 :=
  ⟨by decide, C5_out_of_range_blank _ _ 0 [] 19 none 5 (by decide)⟩

/-- Claim C9: with brightness 0, contrast 0 and CLAHE disabled, the
pipeline changes no intensity beyond the resize and the channel flip — it
agrees with the transform-free pipeline on every input. -/
theorem C9_zero_config_identity (resizeFn : Image → Nat → Nat → Image)
    (claheFn : ClaheConfig → Image → Image) (frame_no : Int) (frames : List Image)
    (N : Nat) (relNo : Int) :
    get_frame resizeFn claheFn frame_no frames N
        (some { brightness := 0, contrast := 0, clahe := none }) relNo
      = get_frame resizeFn claheFn frame_no frames N none relNo := by
  simp only [get_frame]
  split
  · rfl
  · congr 1
    ext i j c
    · rfl
    · rfl
    · rfl
    · simp [brightness_contrast_adjust]

/-- Claim C7: for an in-range frame the pipeline is, in order: resize to
the cell size, then brightness/contrast with `alpha = 1 + brightness` and
`beta = contrast` (where the shift `beta` scales the image's own maximum
intensity), then CLAHE exactly when its configuration is present, then the
channel-order flip as the final step. -/
theorem C7_pipeline_order (resizeFn : Image → Nat → Nat → Image)
    (claheFn : ClaheConfig → Image → Image) (frame_no : Int) (frames : List Image)
    (N : Nat) (t : ImageTransforms) (relNo : Int)
    (h0 : 0 ≤ relNo + frame_no) (h1 : relNo + frame_no < (frames.length : Int)) :
    get_frame resizeFn claheFn frame_no frames N (some t) relNo
      = flipChannels (applyOptClahe claheFn t.clahe
          (brightness_contrast_adjust
            (resizeFn (frames.getD (relNo + frame_no).toNat (zeros 0 0 0)) (800 / N) (800 / N))
            (1 + t.brightness) t.contrast)) ∧
    (∀ img α β i j c, (brightness_contrast_adjust img α β).pixel i j c
        = α * img.pixel i j c + β * maxIntensity img) := by
  constructor
  · simp only [get_frame]
    rw [if_neg (by omega)]
    cases t.clahe <;> rfl
  · intro img α β i j c
    rfl

theorem C7_witness :
    ((0 : Int) ≤ 0 + 0) ∧ ((0 : Int) + 0 < (List.length [zeros 2 2 3] : Int)) ∧
    (get_frame (fun f _ _ => f) (fun _ f => f) 0 [zeros 2 2 3] 19
        (some { brightness := 0, contrast := 0, clahe := none }) 0
      = flipChannels (applyOptClahe (fun _ f => f) none
          (brightness_contrast_adjust
            (([zeros 2 2 3].getD ((0 : Int) + 0).toNat (zeros 0 0 0)) )
            (1 + 0) 0)) ∧
    (∀ img α β i j c, (brightness_contrast_adjust img α β).pixel i j c
        = α * img.pixel i j c + β * maxIntensity img)) :=
  ⟨by decide, by decide,
    C7_pipeline_order (fun f _ _ => f) (fun _ f => f) 0 [zeros 2 2 3] 19
      { brightness := 0, contrast := 0, clahe := none } 0 (by decide) (by decide)⟩

theorem getD_map_range {α : Type} (f : Nat → α) {n r : Nat} (d : α) (h : r < n) :
    ((List.range n).map f).getD r d = f r := by
  rw [List.getD_eq_get?, List.get?_map, List.get?_range h]
  rfl

/-- Claim C2: the grid consists of exactly `rows * cols` cells, and the
cell in row `r`, column `c` shows the absolute frame
`center + r*cols*stride + (c - (cols-1)//2)*stride`. -/
theorem C2_grid_layout (frame_no : Int) (rows cols stride : Nat)
    (hrows : 1 ≤ rows) (hcols : 1 ≤ cols) (hstride : 1 ≤ stride) :
    ((labeling_grid frame_no rows cols stride).map List.length).sum = rows * cols ∧
    ∀ r c, r < rows → c < cols →
      ((labeling_grid frame_no rows cols stride).getD r []).getD c 0
        = frame_no + (r : Int) * cols * stride
            + ((c : Int) - ((cols - 1) / 2 : Nat)) * stride := by
  constructor
  · simp only [labeling_grid, show_images_abs_nos, List.map_map, Function.comp_def,
      List.length_map, List.length_range, List.map_const', List.sum_replicate,
      smul_eq_mul]
  · intro r c hr hc
    rw [labeling_grid, getD_map_range _ _ hr, show_images_abs_nos, getD_map_range _ _ hc,
        show_images_rel_no]
    push_cast
    ring

theorem C2_witness :
    1 ≤ 2 ∧ 1 ≤ 3 ∧ 1 ≤ 1 ∧
    (((labeling_grid 7 2 3 1).map List.length).sum = 2 * 3 ∧
     ∀ r c, r < 2 → c < 3 →
       ((labeling_grid 7 2 3 1).getD r []).getD c 0
         = 7 + (r : Int) * 3 * 1 + ((c : Int) - ((3 - 1) / 2 : Nat)) * 1) :=
  ⟨by decide, by decide, by decide, C2_grid_layout 7 2 3 1 (by decide) (by decide) (by decide)⟩

theorem ofDigits10_natDigits (n : Nat) : ofDigits10 (natDigits n) = n := by
  induction n using Nat.strong_induction_on with
  | _ n ih =>
    match n with
    | 0 => simp [natDigits, ofDigits10]
    | n + 1 =>
      have hlt : (n + 1) / 10 < n + 1 := Nat.div_lt_self (Nat.succ_pos n) (by omega)
      simp only [natDigits, ofDigits10]
      rw [ih ((n + 1) / 10) hlt]
      omega

theorem natDigits_lt (n : Nat) : ∀ d ∈ natDigits n, d < 10 := by
  induction n using Nat.strong_induction_on with
  | _ n ih =>
    match n with
    | 0 => intro d hd; simp [natDigits] at hd
    | n + 1 =>
      intro d hd
      have hlt : (n + 1) / 10 < n + 1 := Nat.div_lt_self (Nat.succ_pos n) (by omega)
      simp only [natDigits] at hd
      rcases List.mem_cons.mp hd with h | h
      · omega
      · exact ih ((n + 1) / 10) hlt d h

theorem digitVal_digitChar {d : Nat} (h : d < 10) : digitVal (digitChar d) = d := by
  interval_cases d <;> rfl

theorem digitChar_ne_minus {d : Nat} (h : d < 10) : digitChar d ≠ '-' := by
  interval_cases d <;> decide

theorem natKey_parse (n : Nat) : ofDigits10 (((natKey n).map digitVal).reverse) = n := by
  by_cases h0 : n = 0
  · subst h0; rfl
  · rw [natKey, if_neg h0, List.map_reverse, List.reverse_reverse, List.map_map]
    have : List.map (digitVal ∘ digitChar) (natDigits n) = natDigits n := by
      conv_rhs => rw [← List.map_id (natDigits n)]
      refine List.map_congr_left fun d hd => ?_
      exact digitVal_digitChar (natDigits_lt n d hd)
    rw [this, ofDigits10_natDigits]

theorem natKey_head_ne_minus (n : Nat) : (natKey n).head? ≠ some '-' := by
  intro hcon
  have hmem : '-' ∈ natKey n := List.mem_of_mem_head? (by rw [hcon]; rfl)
  by_cases h0 : n = 0
  · subst h0; simp [natKey] at hmem
  · rw [natKey, if_neg h0, List.mem_reverse] at hmem
    rcases List.mem_map.mp hmem with ⟨d, hd, hdc⟩
    exact digitChar_ne_minus (natDigits_lt n d hd) hdc

theorem keyToInt_intKey (i : Int) : keyToInt (intKey i) = i := by
  by_cases h : i < 0
  · rw [intKey, if_pos h, keyToInt,
      if_pos (show ('-' :: natKey i.natAbs).head? = some '-' from rfl)]
    simp only [List.tail_cons]
    rw [natKey_parse]
    omega
  · rw [intKey, if_neg h, keyToInt, if_neg (natKey_head_ne_minus _)]
    rw [natKey_parse]
    omega

/-- Claim C4: saving a store and loading it back yields the original store
with per-track record order preserved, and the end-to-end example of the
spec (add `(25, 30, -1)` for track 5 to `{5: [[10,20,5,3]]}`, save, load)
produces `{5: [[10,20,5,3],[25,30,5,-1]]}`. -/
theorem C4_save_load_round_trip :
    (∀ s : Store, load_sequences (some (.ok (save_sequences s))) = .ok s) ∧
    load_sequences (some (.ok (save_sequences
        (adding_sequences [(5, [[10, 20, 5, 3]])] 5 25 30 (-1)))))
      = .ok [(5, [[10, 20, 5, 3], [25, 30, 5, -1]])] := by
  have hrt : ∀ s : Store, load_sequences (some (.ok (save_sequences s))) = .ok s := by
    intro s
    simp only [load_sequences, save_sequences, List.map_map]
    have hfun : ((fun e : List Char × List (List Int) => (keyToInt e.1, e.2)) ∘
        fun e : Int × List (List Int) => (intKey e.1, e.2)) = id := by
      funext e
      simp [Function.comp, keyToInt_intKey]
    rw [hfun, List.map_id]
  refine ⟨hrt, ?_⟩
  have h2 : adding_sequences [(5, [[10, 20, 5, 3]])] 5 25 30 (-1)
      = [(5, [[10, 20, 5, 3], [25, 30, 5, -1]])] := by decide
  rw [h2]
  exact hrt _

/-- Claim C1: for a track present in the store and `k ≥ 1`, the listing of
`show_sequences` is sorted ascending by the full record tuple, has
`min k len` rows (the last `k` of the sorted order — every omitted record
compares `≤` every kept one), and pairs each shown record with its
original, pre-sort index into the stored list. -/
theorem C1_recent_sorted_last_k (s : Store) (tid : Int) (k : Nat) (l : List (List Int))
    (hl : lookupStore s tid = some l) (hk : 1 ≤ k) :
    (recent s tid k).length = min k l.length ∧
    List.Sorted recLe (recent s tid k) ∧
    (∀ p ∈ recent s tid k, l.get? p.1 = some p.2) ∧
    (∀ p ∈ l.enum, p ∉ recent s tid k → ∀ q ∈ recent s tid k, recLe p q) := by
  have hrec : recent s tid k
      = (List.insertionSort recLe l.enum).drop
          ((List.insertionSort recLe l.enum).length - k) := by
    simp only [recent, hl]
  have hsorted := List.sorted_insertionSort recLe l.enum
  have hperm := List.perm_insertionSort recLe l.enum
  have hlen : (List.insertionSort recLe l.enum).length = l.length := by
    rw [List.length_insertionSort, List.enum_length]
  refine ⟨?_, ?_, ?_, ?_⟩
  · rw [hrec, List.length_drop, hlen]
    omega
  · rw [hrec]
    exact List.Pairwise.sublist (List.drop_sublist _ _) hsorted
  · intro p hp
    rw [hrec] at hp
    have hpe : p ∈ l.enum := hperm.mem_iff.mp (List.mem_of_mem_drop hp)
    exact List.mem_enum_iff_get?.mp hpe
  · intro p hp hnot q hq
    rw [hrec] at hnot hq
    have hp' : p ∈ List.insertionSort recLe l.enum := hperm.mem_iff.mpr hp
    have hsplit := List.take_append_drop
      ((List.insertionSort recLe l.enum).length - k) (List.insertionSort recLe l.enum)
    have hptake : p ∈ (List.insertionSort recLe l.enum).take
        ((List.insertionSort recLe l.enum).length - k) := by
      have hmem := hp'
      rw [← hsplit] at hmem
      rcases List.mem_append.mp hmem with h | h
      · exact h
      · exact absurd h hnot
    have hpair : List.Pairwise recLe
        ((List.insertionSort recLe l.enum).take ((List.insertionSort recLe l.enum).length - k)
          ++ (List.insertionSort recLe l.enum).drop
              ((List.insertionSort recLe l.enum).length - k)) := by
      rw [hsplit]
      exact hsorted
    exact (List.pairwise_append.mp hpair).2.2 p hptake q hq

theorem C1_witness :
    lookupStore [((1 : Int), [[2, 0, 1, 0], [1, 0, 1, 5]])] 1 = some [[2, 0, 1, 0], [1, 0, 1, 5]] ∧
    1 ≤ 1 ∧
    ((recent [((1 : Int), [[2, 0, 1, 0], [1, 0, 1, 5]])] 1 1).length
        = min 1 [[(2 : Int), 0, 1, 0], [1, 0, 1, 5]].length ∧
      List.Sorted recLe (recent [((1 : Int), [[2, 0, 1, 0], [1, 0, 1, 5]])] 1 1) ∧
      (∀ p ∈ recent [((1 : Int), [[2, 0, 1, 0], [1, 0, 1, 5]])] 1 1,
        [[(2 : Int), 0, 1, 0], [1, 0, 1, 5]].get? p.1 = some p.2) ∧
      (∀ p ∈ [[(2 : Int), 0, 1, 0], [1, 0, 1, 5]].enum,
        p ∉ recent [((1 : Int), [[2, 0, 1, 0], [1, 0, 1, 5]])] 1 1 →
        ∀ q ∈ recent [((1 : Int), [[2, 0, 1, 0], [1, 0, 1, 5]])] 1 1, recLe p q)) :=
  ⟨by decide, by decide,
    C1_recent_sorted_last_k [((1 : Int), [[2, 0, 1, 0], [1, 0, 1, 5]])] 1 1
      [[2, 0, 1, 0], [1, 0, 1, 5]] (by decide) (by decide)⟩

theorem lookupStore_updateStore (s : Store) (tid : Int) (v : List (List Int))
    (h : (lookupStore s tid).isSome) :
    lookupStore (updateStore s tid v) tid = some v := by
  induction s with
  | nil => simp [lookupStore] at h
  | cons e t ih =>
    by_cases he : e.1 == tid
    · simp [lookupStore, updateStore, List.find?, he]
    · simp only [lookupStore, updateStore, List.map_cons, List.find?] at h ⊢
      rw [if_neg (by simpa using he)]
      simp only [he, Bool.false_eq_true, cond_false] at h ⊢
      exact ih h

theorem enumFrom_filter_map_eq_range (l : List (List Int)) :
    ∀ (off : Nat) (P : Nat → Bool),
      ((List.enumFrom off l).filter fun p => P p.1).map (·.2)
        = ((List.range l.length).filter fun i => P (off + i)).map fun i => l.getD i [] := by
  induction l with
  | nil => intro off P; rfl
  | cons a t ih =>
    intro off P
    rw [List.enumFrom_cons, List.filter_cons, List.length_cons, List.range_succ_eq_map,
        List.filter_cons]
    have htail : (List.filter (fun i => P (off + i)) (List.map Nat.succ (List.range t.length))).map
          (fun i => (a :: t).getD i [])
        = ((List.range t.length).filter fun i => P (off + 1 + i)).map fun i => t.getD i [] := by
      rw [List.filter_map, List.map_map]
      have hpred : ((fun i => P (off + i)) ∘ Nat.succ) = fun i => P (off + 1 + i) := by
        funext i
        simp only [Function.comp_apply, Nat.succ_eq_add_one]
        congr 1
        omega
      have hget : ((fun i => (a :: t).getD i []) ∘ Nat.succ) = fun i => t.getD i [] := by
        funext i
        simp [Nat.succ_eq_add_one, List.getD_cons_succ]
      rw [hpred, hget]
    by_cases hP : P off
    · rw [if_pos (by simpa using hP), if_pos (by simpa using hP)]
      rw [List.map_cons, List.map_cons, List.getD_cons_zero, ih (off + 1) P, htail]
    · rw [if_neg (by simpa using hP), if_neg (by simpa using hP)]
      rw [ih (off + 1) P, htail]

theorem enum_filter_map_eq_range (l : List (List Int)) (P : Nat → Bool) :
    (l.enum.filter fun p => P p.1).map (·.2)
      = ((List.range l.length).filter P).map fun i => l.getD i [] := by
  rw [List.enum_eq_enumFrom, enumFrom_filter_map_eq_range l 0 P]
  simp

theorem map_getD_range (l : List (List Int)) :
    ((List.range l.length).map fun i => l.getD i []) = l := by
  induction l with
  | nil => rfl
  | cons a t ih =>
    rw [List.length_cons, List.range_succ_eq_map, List.map_cons, List.map_map,
        List.getD_cons_zero]
    have hget : ((fun i => (a :: t).getD i []) ∘ Nat.succ) = fun i => t.getD i [] := by
      funext i
      simp [Nat.succ_eq_add_one, List.getD_cons_succ]
    rw [hget, ih]

/-- Claim C3: removal rebuilds the track's list keeping exactly the
entries whose original index is not in the removal set (the kept entries
are those at the in-range indices outside the set, in their original
relative order — a sublist of the stored list); indices beyond the list
are silently ignored, and the key stays present even when the result is
empty. -/
theorem C3_remove_filters (s : Store) (tid : Int) (ris : List Nat) (l : List (List Int))
    (hl : lookupStore s tid = some l) :
    lookupStore (remove_step s tid ris) tid
      = some (((List.range l.length).filter fun i => !(ris.contains i)).map fun i => l.getD i []) ∧
    (((List.range l.length).filter fun i => !(ris.contains i)).map fun i => l.getD i []).Sublist
      l := by
  have hsub : (((List.range l.length).filter fun i => !(ris.contains i)).map
      fun i => l.getD i []).Sublist l := by
    rw [← enum_filter_map_eq_range]
    have h1 : (l.enum.filter fun p => !(ris.contains p.1)).Sublist l.enum :=
      List.filter_sublist _
    have h2 := List.Sublist.map (·.2) h1
    have h3 : List.map (·.2) l.enum = l := List.enum_map_snd l
    rw [h3] at h2
    exact h2
  refine ⟨?_, hsub⟩
  simp only [remove_step, hl]
  by_cases hr : 0 < ris.length
  · rw [if_pos hr, lookupStore_updateStore _ _ _ (by rw [hl]; rfl)]
    exact congrArg some (enum_filter_map_eq_range l fun i => !(ris.contains i))
  · rw [if_neg hr]
    have hnil : ris = [] := List.eq_nil_of_length_eq_zero (by omega)
    subst hnil
    simp only [List.contains_nil, Bool.not_false, List.filter_true]
    rw [map_getD_range]
    exact hl

theorem C3_witness :
    lookupStore [((1 : Int), [[7, 0, 1, 2], [8, 0, 1, 3]])] 1 = some [[7, 0, 1, 2], [8, 0, 1, 3]] ∧
    (lookupStore (remove_step [((1 : Int), [[7, 0, 1, 2], [8, 0, 1, 3]])] 1 [0, 5]) 1
        = some (((List.range [[(7 : Int), 0, 1, 2], [8, 0, 1, 3]].length).filter
            fun i => !([0, 5].contains i)).map
              fun i => [[(7 : Int), 0, 1, 2], [8, 0, 1, 3]].getD i []) ∧
      (((List.range [[(7 : Int), 0, 1, 2], [8, 0, 1, 3]].length).filter
          fun i => !([0, 5].contains i)).map
            fun i => [[(7 : Int), 0, 1, 2], [8, 0, 1, 3]].getD i []).Sublist
        [[(7 : Int), 0, 1, 2], [8, 0, 1, 3]]) :=
  ⟨by decide,
    C3_remove_filters [((1 : Int), [[7, 0, 1, 2], [8, 0, 1, 3]])] 1 [0, 5]
      [[7, 0, 1, 2], [8, 0, 1, 3]] (by decide)⟩

theorem canvasLoop_dims (w : Nat → Image → Image) (n size : Nat) :
    ∀ (fs : List Image) (idx : Nat) (img : Image),
      (canvasLoop w n size fs idx img).height = img.height ∧
      (canvasLoop w n size fs idx img).width = img.width ∧
      (canvasLoop w n size fs idx img).channels = img.channels := by
  intro fs
  induction fs with
  | nil => intro idx img; exact ⟨rfl, rfl, rfl⟩
  | cons b rest ih =>
    intro idx img
    simp only [canvasLoop]
    split
    · exact ⟨rfl, rfl, rfl⟩
    · exact ih (idx + 1) _

theorem tileIndex_decomp {n size y x : Nat} (hn : 0 < n) (hsz : 0 < size)
    (hx : x < size * n) :
    tileIndex n size y x / n = y / size ∧ tileIndex n size y x % n = x / size := by
  have hr : x / size < n := (Nat.div_lt_iff_lt_mul hsz).mpr (by rw [Nat.mul_comm n size]; exact hx)
  have h0 : tileIndex n size y x = x / size + n * (y / size) := by rw [tileIndex]; ring
  constructor
  · rw [h0, Nat.add_mul_div_left _ _ hn, Nat.div_eq_of_lt hr, Nat.zero_add]
  · rw [h0, Nat.add_mul_mod_self_left, Nat.mod_eq_of_lt hr]

theorem tileIndex_lt {n size y x : Nat} (hn : 0 < n) (hsz : 0 < size)
    (hy : y < size * n) (hx : x < size * n) : tileIndex n size y x < n ^ 2 := by
  have hq : y / size < n := (Nat.div_lt_iff_lt_mul hsz).mpr (by rw [Nat.mul_comm n size]; exact hy)
  have hr : x / size < n := (Nat.div_lt_iff_lt_mul hsz).mpr (by rw [Nat.mul_comm n size]; exact hx)
  calc tileIndex n size y x = (y / size) * n + x / size := rfl
    _ < (y / size) * n + n := Nat.add_lt_add_left hr _
    _ = (y / size + 1) * n := by ring
    _ ≤ n * n := Nat.mul_le_mul_right n hq
    _ = n ^ 2 := (Nat.pow_two n).symm

theorem placeTile_region_iff {n size y x t : Nat} (hn : 0 < n) (hsz : 0 < size)
    (hx : x < size * n) (ht : t < n ^ 2) :
    ((t / n) * size ≤ y ∧ y < (t / n + 1) * size ∧ (t % n) * size ≤ x ∧ x < (t % n + 1) * size)
      ↔ t = tileIndex n size y x := by
  constructor
  · rintro ⟨h1, h2, h3, h4⟩
    have hy' : y / size = t / n := Nat.div_eq_of_lt_le h1 h2
    have hx' : x / size = t % n := Nat.div_eq_of_lt_le h3 h4
    rw [tileIndex, hy', hx', Nat.mul_comm (t / n) n]
    exact (Nat.div_add_mod t n).symm
  · rintro rfl
    obtain ⟨hdiv, hmod⟩ := tileIndex_decomp hn hsz hx
    rw [hdiv, hmod]
    refine ⟨Nat.div_mul_le_self y size, ?_, Nat.div_mul_le_self x size, ?_⟩
    · exact (Nat.div_lt_iff_lt_mul hsz).mp (Nat.lt_succ_self _)
    · exact (Nat.div_lt_iff_lt_mul hsz).mp (Nat.lt_succ_self _)

theorem canvasLoop_pixel (w : Nat → Image → Image) (n size : Nat) (hn : 0 < n)
    (hsz : 0 < size) (y x c : Nat) (hy : y < size * n) (hx : x < size * n) :
    ∀ (fs : List Image) (idx : Nat) (img : Image), idx < n ^ 2 →
      (canvasLoop w n size fs idx img).pixel y x c
        = if idx ≤ tileIndex n size y x ∧
              tileIndex n size y x < idx + min fs.length (n ^ 2 - idx) then
            (w (tileIndex n size y x)
                (fs.getD (tileIndex n size y x - idx) (zeros 0 0 0))).pixel
              (y - (y / size) * size) (x - (x / size) * size) c
          else img.pixel y x c := by
  intro fs
  induction fs with
  | nil =>
    intro idx img hidx
    rw [if_neg (by simp only [List.length_nil, Nat.zero_min]; omega)]
    rfl
  | cons b rest ih =>
    intro idx img hidx
    obtain ⟨hdiv, hmod⟩ := @tileIndex_decomp n size y x hn hsz hx
    simp only [canvasLoop, List.length_cons]
    by_cases hb : idx = n ^ 2 - 1
    · rw [if_pos hb]
      have h1 : n ^ 2 - idx = 1 := by omega
      simp only [h1, Nat.min_eq_right (show 1 ≤ rest.length + 1 by omega)]
      by_cases hteq : tileIndex n size y x = idx
      · have hreg := (placeTile_region_iff hn hsz hx (show idx < n ^ 2 by omega)).mpr hteq.symm
        simp only [placeTile]
        rw [if_pos hreg, if_pos (by omega)]
        rw [← hteq, hdiv, hmod, Nat.sub_self, List.getD_cons_zero]
      · have hreg : ¬((idx / n) * size ≤ y ∧ y < (idx / n + 1) * size ∧
            (idx % n) * size ≤ x ∧ x < (idx % n + 1) * size) := by
          intro hcon
          exact hteq
            (((placeTile_region_iff hn hsz hx (show idx < n ^ 2 by omega)).mp hcon).symm)
        simp only [placeTile]
        rw [if_neg hreg, if_neg (by omega)]
    · rw [if_neg hb]
      have hidx1 : idx + 1 < n ^ 2 := by omega
      rw [ih (idx + 1) _ hidx1]
      have hmin : min (rest.length + 1) (n ^ 2 - idx)
          = min rest.length (n ^ 2 - (idx + 1)) + 1 := by
        have h2 : n ^ 2 - idx = (n ^ 2 - (idx + 1)) + 1 := by omega
        rw [h2]
        exact Nat.succ_min_succ rest.length (n ^ 2 - (idx + 1))
      simp only [hmin]
      by_cases hteq : tileIndex n size y x = idx
      · rw [if_neg (by omega)]
        have hreg := (placeTile_region_iff hn hsz hx (show idx < n ^ 2 by omega)).mpr hteq.symm
        simp only [placeTile]
        rw [if_pos hreg, if_pos (by omega)]
        rw [← hteq, hdiv, hmod, Nat.sub_self, List.getD_cons_zero]
      · by_cases hge : idx + 1 ≤ tileIndex n size y x ∧
            tileIndex n size y x < idx + 1 + min rest.length (n ^ 2 - (idx + 1))
        · rw [if_pos hge, if_pos (by omega)]
          have hsub : tileIndex n size y x - idx
              = (tileIndex n size y x - (idx + 1)) + 1 := by omega
          rw [hsub, List.getD_cons_succ]
        · rw [if_neg hge]
          have hreg : ¬((idx / n) * size ≤ y ∧ y < (idx / n + 1) * size ∧
              (idx % n) * size ≤ x ∧ x < (idx % n + 1) * size) := by
            intro hcon
            exact hteq
              (((placeTile_region_iff hn hsz hx (show idx < n ^ 2 by omega)).mp hcon).symm)
          simp only [placeTile]
          rw [if_neg hreg, if_neg (by omega)]

/-- Claim C6: the composed canvas is a `(size*n, size*n, 3)` image; a pixel
inside the tile with row-major index `t = (y/size)*n + x/size` shows the
content of frame `t` (with its index text stamped on) shifted to the tile
origin, provided `t` is among the first `min frames.length (n*n)` frames —
frames beyond `n*n` are ignored, and tiles with no frame keep the zero
value of the canvas initialization. -/
theorem C6_canvas_layout (w : Nat → Image → Image) (frames : List Image) (n size : Nat)
    (hn : 1 ≤ n) (hsz : 1 ≤ size) :
    (canvas w frames n size).height = size * n ∧
    (canvas w frames n size).width = size * n ∧
    (canvas w frames n size).channels = 3 ∧
    ∀ y x c, y < size * n → x < size * n →
      (canvas w frames n size).pixel y x c
        = if tileIndex n size y x < min frames.length (n ^ 2) then
            (w (tileIndex n size y x)
                (frames.getD (tileIndex n size y x) (zeros 0 0 0))).pixel
              (y - (y / size) * size) (x - (x / size) * size) c
          else 0 := by
  obtain ⟨hh, hw, hc⟩ := canvasLoop_dims w n size frames 0 (zeros (size * n) (size * n) 3)
  refine ⟨hh, hw, hc, ?_⟩
  intro y x c hy hx
  rw [canvas, canvasLoop_pixel w n size hn hsz y x c hy hx frames 0 _ (by positivity)]
  simp only [Nat.sub_zero, Nat.zero_add]
  by_cases hcond : tileIndex n size y x < min frames.length (n ^ 2)
  · rw [if_pos (And.intro (Nat.zero_le _) hcond), if_pos hcond]
  · rw [if_neg (fun hcon => hcond hcon.2), if_neg hcond]
    rfl

theorem C6_witness :
    1 ≤ 2 ∧ 1 ≤ 1 ∧
    ((canvas (fun i img => img) [zeros 1 1 3] 2 1).height = 1 * 2 ∧
     (canvas (fun i img => img) [zeros 1 1 3] 2 1).width = 1 * 2 ∧
     (canvas (fun i img => img) [zeros 1 1 3] 2 1).channels = 3 ∧
     ∀ y x c, y < 1 * 2 → x < 1 * 2 →
       (canvas (fun i img => img) [zeros 1 1 3] 2 1).pixel y x c
         = if tileIndex 2 1 y x < min [zeros 1 1 3].length (2 ^ 2) then
             ((fun i img => img) (tileIndex 2 1 y x)
                 ([zeros 1 1 3].getD (tileIndex 2 1 y x) (zeros 0 0 0))).pixel
               (y - (y / 1) * 1) (x - (x / 1) * 1) c
           else 0) :=
  ⟨by decide, by decide,
    C6_canvas_layout (fun i img => img) [zeros 1 1 3] 2 1 (by decide) (by decide)⟩

theorem heapCanvasLoop_preserves (w : Nat → Image → Image) (n size : Nat) :
    ∀ (ids : List Nat) (idx : Nat) (heap : List Image) (image : Image),
      (heapCanvasLoop w n size ids idx heap image).1.take heap.length = heap := by
  intro ids
  induction ids with
  | nil =>
    intro idx heap image
    exact List.take_length heap
  | cons bid rest ih =>
    intro idx heap image
    simp only [heapCanvasLoop]
    have hset : (heap ++ [heap.getD bid (zeros 0 0 0)]).set heap.length
          (w idx ((heap ++ [heap.getD bid (zeros 0 0 0)]).getD heap.length (zeros 0 0 0)))
        = heap ++ [w idx ((heap ++ [heap.getD bid (zeros 0 0 0)]).getD heap.length
            (zeros 0 0 0))] := by
      rw [List.set_append, if_neg (by omega), Nat.sub_self]
      rfl
    rw [hset]
    split
    · exact List.take_left heap _
    · have h1 := ih (idx + 1)
        (heap ++ [w idx ((heap ++ [heap.getD bid (zeros 0 0 0)]).getD heap.length (zeros 0 0 0))])
        (placeTile image
          ((heap ++ [w idx ((heap ++ [heap.getD bid (zeros 0 0 0)]).getD heap.length
              (zeros 0 0 0))]).getD heap.length (zeros 0 0 0))
          (idx / n) (idx % n) size)
      have hle : heap.length
          ≤ (heap ++ [w idx ((heap ++ [heap.getD bid (zeros 0 0 0)]).getD heap.length
              (zeros 0 0 0))]).length := by
        simp
      calc (heapCanvasLoop w n size rest (idx + 1)
              (heap ++ [w idx ((heap ++ [heap.getD bid (zeros 0 0 0)]).getD heap.length
                  (zeros 0 0 0))])
              (placeTile image
                ((heap ++ [w idx ((heap ++ [heap.getD bid (zeros 0 0 0)]).getD heap.length
                    (zeros 0 0 0))]).getD heap.length (zeros 0 0 0))
                (idx / n) (idx % n) size)).1.take heap.length
          = ((heapCanvasLoop w n size rest (idx + 1)
              (heap ++ [w idx ((heap ++ [heap.getD bid (zeros 0 0 0)]).getD heap.length
                  (zeros 0 0 0))])
              (placeTile image
                ((heap ++ [w idx ((heap ++ [heap.getD bid (zeros 0 0 0)]).getD heap.length
                    (zeros 0 0 0))]).getD heap.length (zeros 0 0 0))
                (idx / n) (idx % n) size)).1.take
              (heap ++ [w idx ((heap ++ [heap.getD bid (zeros 0 0 0)]).getD heap.length
                  (zeros 0 0 0))]).length).take heap.length := by
            rw [List.take_take, Nat.min_eq_left hle]
        _ = (heap ++ [w idx ((heap ++ [heap.getD bid (zeros 0 0 0)]).getD heap.length
                (zeros 0 0 0))]).take heap.length := by rw [h1]
        _ = heap := List.take_left heap _

/-- Claim C10: mosaic composition never mutates its input frames.  At the
heap level — where `bbox.copy()` allocates a fresh buffer and
`vt.write_text` mutates a buffer in place — every buffer referenced by the
input frame list holds, after the call, exactly the pixel data it held
before: only the freshly allocated copies are ever written. -/
theorem C10_canvas_no_input_mutation (w : Nat → Image → Image) (frameIds : List Nat)
    (n size : Nat) (heap : List Image) (hvalid : ∀ b ∈ frameIds, b < heap.length) :
    ∀ b ∈ frameIds,
      (heapCanvas w frameIds n size heap).1.getD b (zeros 0 0 0)
        = heap.getD b (zeros 0 0 0) := by
  intro b hb
  have hpre := heapCanvasLoop_preserves w n size frameIds 0 heap (zeros (size * n) (size * n) 3)
  have hlt := hvalid b hb
  have hgoal : ((heapCanvas w frameIds n size heap).1.take heap.length).getD b (zeros 0 0 0)
      = heap.getD b (zeros 0 0 0) := by
    rw [heapCanvas, hpre]
  rw [← hgoal, List.getD_eq_getElem?_getD, List.getD_eq_getElem?_getD,
      List.getElem?_take, if_pos hlt]

theorem C10_witness :
    (∀ b ∈ [0], b < [zeros 2 2 3].length) ∧
    ∀ b ∈ [0],
      (heapCanvas (fun i img => zeros 1 1 3) [0] 1 1 [zeros 2 2 3]).1.getD b (zeros 0 0 0)
        = [zeros 2 2 3].getD b (zeros 0 0 0) :=
  ⟨by decide,
    C10_canvas_no_input_mutation (fun i img => zeros 1 1 3) [0] 1 1 [zeros 2 2 3] (by decide)⟩

end VideoMarkUp
